import Mathlib

/-!
Verification development for the docx PII extraction / redaction tool
(`docx_pii.py`).  The file embeds the program's core data model and
operations as executable Lean definitions and proves or refutes the
specification's claims about them.

Modelling conventions:
* Python strings are `List Char` (a Python `str` is a sequence of code
  points); slicing `s[:a]`, `s[b:]` becomes `List.take a`, `List.drop b`.
* The XML tree is `XTree` (tag plus ordered children).  Element text is
  kept outside the tree: the program only ever reads or writes the text
  of `w:t` nodes, and never inserts or removes nodes, so a document
  snapshot is a shape (`XTree`) together with the list of the `w:t`
  texts in document order.  Mutating `el.text` becomes producing the
  updated text list.
* lxml node identity is modelled by tree positions (lists of child
  indices), which identify a node uniquely.
* Machine integers are `Nat`; offsets and lengths in the program are
  non-negative (`m.start()`, `len(...)`).
-/

/-- The blackout glyph used by `redact_docx` (`"█" * span_len`, line 183). -/
def glyph : Char := '█'

/-- One iteration of the redaction while-loop body on a single `w:t` node
(`docx_pii.py` lines 175-189): given the node's `text`, the position
`start_pos` where blanking starts, and the budget `remaining`, return the
updated text and the updated budget.  Mirrors
`end_pos = min(len(text), start_pos + remaining)` and the
`if start_pos < len(text)` guard (the `else` branch leaves the node and
the budget untouched). -/
def redactNode (text : List Char) (start_pos remaining : Nat) : List Char × Nat :=
  let end_pos := min text.length (start_pos + remaining)
  if start_pos < text.length then
    (text.take start_pos ++ List.replicate (end_pos - start_pos) glyph ++ text.drop end_pos,
      remaining - (end_pos - start_pos))
  else
    (text, remaining)

/-- The `while remaining > 0 and idx < len(text_nodes)` loop of
`redact_docx` (lines 174-193), acting on the suffix of the document-order
`w:t` text list that starts at the resolved node.  The first node is
blanked from `cur_offset`; after it, `cur_offset = 0` (line 192), and the
`idx == text_nodes.index(start_node)` test of line 179 is true exactly on
the first iteration. -/
def redactWalk : List (List Char) → Nat → Nat → List (List Char)
  | [], _, _ => []
  | t :: ts, remaining, cur_offset =>
      if remaining = 0 then t :: ts
      else
        match redactNode t cur_offset remaining with
        | (t', remaining') => t' :: redactWalk ts remaining' 0

/-- Effect of one `RedactionRequest` on the document-order list of `w:t`
texts, once its address has been resolved to ordinal position `idx`
(`idx = text_nodes.index(start_node)`, line 166): nodes before `idx` are
not visited, the walk starts at `idx` with budget `length` and cursor
`offset` (lines 170-193). -/
def redactLeaves (texts : List (List Char)) (idx offset length : Nat) : List (List Char) :=
  texts.take idx ++ redactWalk (texts.drop idx) length offset

/-- Length of the `idx`-th leaf text (0 when out of range). -/
def lenAt (texts : List (List Char)) (idx : Nat) : Nat :=
  ((texts[idx]?).getD []).length

/-- `blankSeg a b s` blanks the character positions `[a, b)` of `s` with
blackout glyphs.  Reasoning device for the frame / commutation proofs:
the redaction walk blanks one contiguous segment of the flattened
character stream. -/
def blankSeg : Nat → Nat → List Char → List Char
  | _, _, [] => []
  | a, b, c :: s => (if a = 0 ∧ b ≠ 0 then glyph else c) :: blankSeg (a - 1) (b - 1) s

/-- Stated from the claim's words (C1 / spec §4.4 step 3): starting with a
budget of characters still to blank, replace the leading characters of
each subsequent leaf in order until the budget is exhausted or the leaf
sequence ends.  `min rem t.length` characters of each leaf are replaced,
one glyph per character. -/
def blankWalk : List (List Char) → Nat → List (List Char)
  | [], _ => []
  | t :: ts, rem =>
      (List.replicate (min rem t.length) glyph ++ t.drop rem) :: blankWalk ts (rem - t.length)

/-- Length of the text of the first leaf of a suffix (0 if none). -/
def headLen (ts : List (List Char)) : Nat := ((ts.headD [])).length

/-- Start of the blanked segment of `redactLeaves ts i off L` in the
flattened character stream of the whole document. -/
def segStart (ts : List (List Char)) (i off : Nat) : Nat :=
  (ts.take i).flatten.length + min off (lenAt ts i)

/- ### The document tree, leaf enumeration and address resolution -/

/-- An XML element of `word/document.xml`: local tag name (with its `w:`
prefix, as both halves of the program render it) and ordered children.
Element text is kept separately (see the module comment): the `w:t` texts
live in a parallel list in document order. -/
inductive XTree where
  | mk (tag : String) (children : List XTree)

def XTree.tag : XTree → String
  | .mk t _ => t

def XTree.children : XTree → List XTree
  | .mk _ cs => cs

mutual

/-- Tree positions (child-index paths, the model of lxml node identity) of
every `w:t` descendant of a node, in document (preorder) order: the model
of `findall('.//w:t')` (lines 38 and 150).  `pos` is the position of the
node itself; the node itself is not listed (``.//`` matches proper
descendants only). -/
def tPosOfTree : XTree → List Nat → List (List Nat)
  | XTree.mk _ cs, pos => tPosOfChildren cs pos 0

/-- Positions of `w:t` descendants contributed by the child list `cs` of a
node at position `pos`, the first listed child having raw index `k`. -/
def tPosOfChildren : List XTree → List Nat → Nat → List (List Nat)
  | [], _, _ => []
  | c :: cs, pos, k =>
      (if c.tag = "w:t" then [pos ++ [k]] else []) ++
      tPosOfTree c (pos ++ [k]) ++ tPosOfChildren cs pos (k + 1)

end

/-- `text_nodes = list(xml.findall('.//w:t'))` (line 150), and equally the
iteration order of `get_text_nodes_and_paths` (line 38): the document-order
sequence of `w:t` nodes, as positions. -/
def text_nodes (root : XTree) : List (List Nat) := tPosOfTree root []

/-- 1-based rank of the child at raw index `k` among the same-tag siblings:
`same = [s for s in parent ...]; idx = same.index(el) + 1` (lines 45-46);
`list.index` under lxml node identity counts the earlier same-tag siblings. -/
def sameTagRank (cs : List XTree) (k : Nat) (t : String) : Nat :=
  ((cs.take k).filter (fun s => s.tag = t)).length + 1

/-- The structural address built by `get_text_nodes_and_paths` (lines 40-49)
for the node at position `pos`: one `(tag, same-tag rank)` component per
ancestor below the root.  The source climbs from the leaf to the root and
reverses the accumulated list (line 49); descending the position from the
root produces the same root-to-leaf component list directly.  The root
element itself contributes no component (the upward `while` stops when
`el.getparent() is None`).  The rendered string is
`"/word/document.xml/" + "/".join("w:TAG[RANK]")` (line 50). -/
def addrOfPos : XTree → List Nat → Option (List (String × Nat))
  | _, [] => some []
  | e, k :: rest =>
      match e.children[k]? with
      | none => none
      | some c => (addrOfPos c rest).map (fun a => (c.tag, sameTagRank e.children k c.tag) :: a)

/-- The `(node, xpath_like)` enumeration of `get_text_nodes_and_paths`
(lines 36-51), with nodes as positions and the path as its component list. -/
def get_text_nodes_and_paths (root : XTree) : List (List Nat × List (String × Nat)) :=
  (text_nodes root).map (fun p => (p, (addrOfPos root p).getD []))

/-- XPath child step `w:t[n]` evaluated on a child list: the `n`-th
(1-based) child whose tag is `t`, with its raw index.  `[0]` selects
nothing (XPath positions are 1-based). -/
def findTagged : List XTree → String → Nat → Nat → Option (Nat × XTree)
  | [], _, _, _ => none
  | c :: cs, t, n, k =>
      if c.tag = t then
        if n = 1 then some (k, c)
        else if n = 0 then none
        else findTagged cs t (n - 1) (k + 1)
      else findTagged cs t n (k + 1)

/-- Evaluation of the child steps of a location path below a context node,
returning the position (relative to the context) of the selected node. -/
def resolveSteps : XTree → List (String × Nat) → Option (List Nat)
  | _, [] => some []
  | e, (t, n) :: rest =>
      match findTagged e.children t n 0 with
      | none => none
      | some (k, c) => (resolveSteps c rest).map (fun p => k :: p)

/-- `xml.xpath(local_path, namespaces=NS)` for an absolute location path
`/t₁[n₁]/t₂[n₂]/...` (line 159, after `xml_path.replace('/word/document.xml', '')`
of line 158): an absolute path is evaluated from the DOCUMENT root, whose
only element child is the root element itself, so the FIRST step must
match the root element's tag (with position 1); steps after it descend
through children.  The empty path (`'/'`) selects no element. -/
def resolvePos (root : XTree) : List (String × Nat) → Option (List Nat)
  | [] => none
  | (t, n) :: rest => if root.tag = t ∧ n = 1 then resolveSteps root rest else none

/-- Per-request address resolution of `redact_docx` (lines 157-168):
xpath lookup (`continue` when no node matches) followed by
`idx = text_nodes.index(start_node)` (`continue` on `ValueError`, i.e.
when the resolved node is not one of the `w:t` text nodes). -/
def resolveLeafIdx (root : XTree) (path : List (String × Nat)) : Option Nat :=
  match resolvePos root path with
  | none => none
  | some pos => (text_nodes root).findIdx? (fun q => q == pos)

/-- A redaction request (spec §3): address, character offset, length.
`xml_path` carries the address as its component list (the fixed
`/word/document.xml` prefix of the rendered string is stripped before
resolution, line 158). -/
structure RedactionRequest where
  xml_path : List (String × Nat)
  offset : Nat
  length : Nat
deriving DecidableEq

/-- One iteration of the `for red in redactions` loop of `redact_docx`
(lines 152-193) on the document state: failed resolution leaves the
texts unchanged (`continue`), otherwise the redaction walk runs from the
resolved ordinal position. -/
def applyRedaction (root : XTree) (texts : List (List Char)) (red : RedactionRequest) : List (List Char) :=
  match resolveLeafIdx root red.xml_path with
  | none => texts
  | some idx => redactLeaves texts idx red.offset red.length

/-- The whole request loop of `redact_docx` (lines 152-193): the batch is
applied sequentially, in caller order, against one snapshot.  `text_nodes`
is gathered once before the loop (line 150) and the loop never changes the
tree's shape, only `w:t` texts, so the document state is the text list. -/
def redact_docx (root : XTree) (texts : List (List Char)) (redactions : List RedactionRequest) : List (List Char) :=
  redactions.foldl (applyRedaction root) texts

/- ### The entity cascade (find_entities_in_text, lines 54-82) -/

/-- Character class `[a-zA-Z0-9_.+-]` (local part of `RE_EMAIL`). -/
def isEmailA (c : Char) : Bool := c.isAlphanum || c = '_' || c = '.' || c = '+' || c = '-'

/-- Character class `[a-zA-Z0-9-]` (domain label of `RE_EMAIL`). -/
def isEmailB (c : Char) : Bool := c.isAlphanum || c = '-'

/-- Character class `[a-zA-Z0-9-.]` (tail of `RE_EMAIL`). -/
def isEmailC (c : Char) : Bool := c.isAlphanum || c = '-' || c = '.'

/-- `RE_EMAIL.match(s)` (line 66): does some prefix of `s`, anchored at
position 0, match `[a-zA-Z0-9_.+-]+@[a-zA-Z0-9-]+\.[a-zA-Z0-9-.]+`?
Since `@` is not in the first class and `.` is not in the second, the
greedy one-or-more runs cannot end anywhere but at their maximal extent,
so the match is decided without backtracking: maximal class-A run, a
literal `@`, maximal class-B run, a literal `.`, then at least one
class-C character. -/
def emailMatch (s : List Char) : Bool :=
  let a := s.takeWhile isEmailA
  if a.isEmpty then false
  else
    match s.drop a.length with
    | '@' :: r2 =>
        let b := r2.takeWhile isEmailB
        if b.isEmpty then false
        else
          match r2.drop b.length with
          | '.' :: c0 :: _ => isEmailC c0
          | _ => false
    | _ => false

/-- A regex match object as consumed by the cascade: `group(0)`,
`start()`, `end()`.  The pattern library itself is an external
collaborator (spec §1); its matches are inputs here. -/
structure RawMatch where
  mtext : List Char
  mstart : Nat
  mend : Nat
deriving DecidableEq

/-- An entity span produced by the optional statistical recognizer
(`doc.ents`): original label, `ent.text`, `ent.start_char`, `ent.end_char`. -/
structure SpacyEnt where
  label_ : String
  etext : List Char
  start_char : Nat
  end_char : Nat
deriving DecidableEq

/-- One `(entity_name, match_text, start, end)` tuple of the list returned
by `find_entities_in_text`. -/
structure Candidate where
  ename : String
  ctext : List Char
  cstart : Nat
  cend : Nat
deriving DecidableEq

/-- Python `str.strip()` whitespace set (ASCII part). -/
def isPySpace (c : Char) : Bool :=
  c = ' ' || c = '\t' || c = '\n' || c = '\r' || c = '\x0b' || c = '\x0c'

/-- Python `str.strip()`: drop leading and trailing whitespace. -/
def pyStrip (s : List Char) : List Char :=
  ((s.dropWhile isPySpace).reverse.dropWhile isPySpace).reverse

/-- `re.sub(r'\D', '', s)` (line 65): keep only the digit characters. -/
def phoneDigits (s : List Char) : List Char := s.filter Char.isDigit

/-- The `RE_EMAIL.finditer` loop (lines 57-58). -/
def emailCands (ms : List RawMatch) : List Candidate :=
  ms.map fun m => ⟨"email", m.mtext, m.mstart, m.mend⟩

/-- The `RE_IBAN.finditer` loop (lines 59-60). -/
def accountCands (ms : List RawMatch) : List Candidate :=
  ms.map fun m => ⟨"account", m.mtext, m.mstart, m.mend⟩

/-- The `RE_DATE.finditer` loop (lines 61-62). -/
def dateCands (ms : List RawMatch) : List Candidate :=
  ms.map fun m => ⟨"date", m.mtext, m.mstart, m.mend⟩

/-- The `RE_PHONE.finditer` loop with its acceptance filter (lines 63-67):
a candidate is kept iff its digit count after stripping non-digits is
between 6 and 15 and the candidate does not match the email pattern. -/
def phoneCands (ms : List RawMatch) : List Candidate :=
  ms.filterMap fun m =>
    if 6 ≤ (phoneDigits m.mtext).length ∧ (phoneDigits m.mtext).length ≤ 15 ∧
        ¬ emailMatch m.mtext
    then some ⟨"phone", m.mtext, m.mstart, m.mend⟩ else none

/-- The `RE_ADDRESS_HINT.finditer` loop (lines 68-72): the reported span is
a window `[max(0, start-30), min(len(text), end+60))` around the keyword,
and the reported text is that window's text stripped of whitespace. -/
def hintCands (text : List Char) (ms : List RawMatch) : List Candidate :=
  ms.map fun m =>
    let wstart := m.mstart - 30
    let wend := min text.length (m.mend + 60)
    ⟨"address_hint", pyStrip ((text.drop wstart).take (wend - wstart)), wstart, wend⟩

/-- The statistical-recognizer branch (lines 73-78): keep PERSON/GPE/LOC/ORG
spans, relabelled into name/location/organization. -/
def spacyCands (ents : List SpacyEnt) : List Candidate :=
  ents.filterMap fun ent =>
    if ent.label_ = "PERSON" ∨ ent.label_ = "GPE" ∨ ent.label_ = "LOC" ∨ ent.label_ = "ORG"
    then some ⟨if ent.label_ = "PERSON" then "name"
               else if ent.label_ = "GPE" ∨ ent.label_ = "LOC" then "location"
               else "organization", ent.etext, ent.start_char, ent.end_char⟩
    else none

/-- The fallback capitalized-run name loop (lines 80-81). -/
def nameCands (ms : List RawMatch) : List Candidate :=
  ms.map fun m => ⟨"name_heuristic", m.mtext, m.mstart, m.mend⟩

/-- `find_entities_in_text` (lines 54-82), parameterized by the match lists
the external regex engine returns for each pattern on `text` (`finditer`
document-order lists for `RE_EMAIL`, `RE_IBAN`, `RE_DATE`, `RE_PHONE`,
`RE_ADDRESS_HINT` and the capitalized-run name heuristic) and by the
optional recognizer's spans.  Each rule appends its candidates in turn:
emails, accounts, dates, filtered phones, address-hint windows, then the
statistical branch (when `USE_SPACY`) or the name heuristic. -/
def find_entities_in_text (text : List Char)
    (emailMs accountMs dateMs phoneMs hintMs nameMs : List RawMatch)
    (use_spacy : Bool) (spacyEnts : List SpacyEnt) : List Candidate :=
  emailCands emailMs ++ accountCands accountMs ++ dateCands dateMs ++
    phoneCands phoneMs ++ hintCands text hintMs ++
    (if use_spacy then spacyCands spacyEnts else nameCands nameMs)

/- ### Output records and deduplication (main, lines 95-118) -/

/-- An output record of `main` (lines 102-108): entity name, matched text,
address, offset, and the added `length` field. -/
structure EntityItem where
  entity_name : String
  rtext : List Char
  xml_path : List (String × Nat)
  offset : Nat
  length : Nat
deriving DecidableEq

/-- Record construction of `main` (lines 101-109): `offset` is the
candidate's start and `length` is `len(ent_text)` — the length of the
matched text itself, not `end - start`. -/
def mkItems (ents : List Candidate) (xml_path : List (String × Nat)) : List EntityItem :=
  ents.map fun e => ⟨e.ename, e.ctext, xml_path, e.cstart, e.ctext.length⟩

/-- The dedup key `(r['xml_path'], r['offset'], r['text'])` (line 115):
the label is not part of the key. -/
def dedupKey (r : EntityItem) : List (String × Nat) × Nat × List Char :=
  (r.xml_path, r.offset, r.rtext)

/-- The dedup loop of `main` (lines 112-118), with the `seen` set carried
as the list of keys inserted so far. -/
def dedupAux : List EntityItem → List (List (String × Nat) × Nat × List Char) → List EntityItem
  | [], _ => []
  | r :: rs, seen =>
      if dedupKey r ∈ seen then dedupAux rs seen
      else r :: dedupAux rs (dedupKey r :: seen)

/-- `unique` as computed by `main` (lines 111-118). -/
def dedup (results : List EntityItem) : List EntityItem := dedupAux results []

/-- Stated from the claim's words (C6): a record is removed exactly when an
earlier record shares its `(address, offset, text)` key; equivalently, keep
each first occurrence and drop every later record with the same key. -/
def keepFirstOcc : List EntityItem → List EntityItem
  | [] => []
  | r :: rs => r :: keepFirstOcc (rs.filter (fun q => decide (dedupKey q ≠ dedupKey r)))
termination_by l => l.length
decreasing_by
  simp only [List.length_cons]
  exact Nat.lt_succ_of_le (List.length_filter_le _ _)

/- ### Concrete fixtures used by witnesses and counterexamples -/

/-- A two-leaf document: `w:document / w:body / w:p / w:r / (w:t, w:t)`. -/
def doc0 : XTree :=
  .mk "w:document" [.mk "w:body" [.mk "w:p" [.mk "w:r" [.mk "w:t" [], .mk "w:t" []]]]]

/-- The address the enumerator produces for the first leaf of `doc0`
(every component carries its same-tag rank; the root element contributes
no component). -/
def addr0 : List (String × Nat) := [("w:body", 1), ("w:p", 1), ("w:r", 1), ("w:t", 1)]

/-- An address whose first component names the root element: the form the
xpath lookup of `redact_docx` actually resolves. -/
def addrT1 : List (String × Nat) :=
  [("w:document", 1), ("w:body", 1), ("w:p", 1), ("w:r", 1), ("w:t", 1)]

/-- Like `addrT1` but selecting the second `w:t` leaf. -/
def addrT2 : List (String × Nat) :=
  [("w:document", 1), ("w:body", 1), ("w:p", 1), ("w:r", 1), ("w:t", 2)]

/-- Texts of the two leaves of `doc0`. -/
def textsAB : List (List Char) := ["ab".toList, "cdef".toList]

/-- Scenario leaf A (spec §8): 12 characters, 7 remaining from offset 5. -/
def leafA : List Char := "Hello, world".toList

/-- Scenario leaf B (spec §8): 20 characters. -/
def leafB : List Char := "0123456789abcdefghij".toList

/-- A `date`-labelled record. -/
def itemDate : EntityItem := ⟨"date", "5/6/2023".toList, addr0, 11, 8⟩

/-- The same span and address as `itemDate` with label `account`. -/
def itemAccount : EntityItem := ⟨"account", "5/6/2023".toList, addr0, 11, 8⟩

/-- Leaf text with surrounding whitespace for the address-hint window. -/
def txtW : List Char := "  street  ".toList

/-- The `RE_ADDRESS_HINT` keyword match on `txtW` (span `[2, 8)`). -/
def hintM : RawMatch := ⟨"street".toList, 2, 8⟩

/- ### Helper lemmas: length preservation -/

theorem redactNode_fst_length (t : List Char) (s r : Nat) :
    (redactNode t s r).1.length = t.length := by
  unfold redactNode
  by_cases h : s < t.length
  · simp only [if_pos h, List.length_append, List.length_take, List.length_replicate,
      List.length_drop]
    omega
  · simp [if_neg h]

theorem redactWalk_map_length (ts : List (List Char)) (rem cur : Nat) :
    (redactWalk ts rem cur).map List.length = ts.map List.length := by
  induction ts generalizing rem cur with
  | nil => rfl
  | cons t ts ih =>
      by_cases h : rem = 0
      · simp [redactWalk, h]
      · simp only [redactWalk, if_neg h, List.map_cons]
        rw [redactNode_fst_length, ih]

theorem redactLeaves_map_length (ts : List (List Char)) (i off L : Nat) :
    (redactLeaves ts i off L).map List.length = ts.map List.length := by
  unfold redactLeaves
  rw [List.map_append, redactWalk_map_length, ← List.map_append, List.take_append_drop]

/- ### Helper lemmas: blankSeg -/

theorem blankSeg_length (a b : Nat) (s : List Char) : (blankSeg a b s).length = s.length := by
  induction s generalizing a b with
  | nil => rfl
  | cons c s ih => simp [blankSeg, ih]

theorem blankSeg_append (a b : Nat) (s u : List Char) :
    blankSeg a b (s ++ u) = blankSeg a b s ++ blankSeg (a - s.length) (b - s.length) u := by
  induction s generalizing a b with
  | nil => simp [blankSeg]
  | cons c s ih =>
      simp only [List.cons_append, blankSeg, List.length_cons, List.append_eq]
      congr 1
      rw [ih]
      have e1 : a - 1 - s.length = a - (s.length + 1) := by omega
      have e2 : b - 1 - s.length = b - (s.length + 1) := by omega
      rw [e1, e2]

theorem blankSeg_of_le (a b : Nat) (s : List Char) (h : b ≤ a) : blankSeg a b s = s := by
  induction s generalizing a b with
  | nil => rfl
  | cons c s ih =>
      have hb : ¬ (a = 0 ∧ b ≠ 0) := by omega
      simp [blankSeg, hb, ih (a - 1) (b - 1) (by omega)]

theorem blankSeg_of_length_le (a b : Nat) (s : List Char) (h : s.length ≤ a) :
    blankSeg a b s = s := by
  induction s generalizing a b with
  | nil => rfl
  | cons c s ih =>
      simp only [List.length_cons] at h
      have hb : ¬ (a = 0 ∧ b ≠ 0) := by omega
      simp [blankSeg, hb, ih (a - 1) (b - 1) (by omega)]

theorem blankSeg_truncate (a b : Nat) (s : List Char) :
    blankSeg a b s = blankSeg a (min b s.length) s := by
  induction s generalizing a b with
  | nil => rfl
  | cons c s ih =>
      simp only [blankSeg, List.length_cons]
      have hcond : (a = 0 ∧ b ≠ 0) ↔ (a = 0 ∧ min b (s.length + 1) ≠ 0) := by omega
      have e2 : min b (s.length + 1) - 1 = min (b - 1) s.length := by omega
      rw [e2, ← ih (a - 1) (b - 1)]
      congr 1
      exact if_congr hcond rfl rfl

theorem blankSeg_comm (a₁ b₁ a₂ b₂ : Nat) (s : List Char) :
    blankSeg a₁ b₁ (blankSeg a₂ b₂ s) = blankSeg a₂ b₂ (blankSeg a₁ b₁ s) := by
  induction s generalizing a₁ b₁ a₂ b₂ with
  | nil => rfl
  | cons c s ih =>
      simp only [blankSeg]
      congr 1
      · by_cases h1 : a₁ = 0 ∧ b₁ ≠ 0 <;> by_cases h2 : a₂ = 0 ∧ b₂ ≠ 0 <;> simp [h1, h2]
      · exact ih _ _ _ _

theorem blankSeg_getElem? (a b p : Nat) (s : List Char) (h : p < a ∨ b ≤ p) :
    (blankSeg a b s)[p]? = s[p]? := by
  induction s generalizing a b p with
  | nil => rfl
  | cons c s ih =>
      cases p with
      | zero =>
          have hb : ¬ (a = 0 ∧ b ≠ 0) := by omega
          simp [blankSeg, hb]
      | succ p =>
          simp only [blankSeg, List.getElem?_cons_succ]
          exact ih (a - 1) (b - 1) p (by omega)

theorem blankSeg_surgery (cur e : Nat) (t : List Char) (hce : cur ≤ e) (he : e ≤ t.length) :
    t.take cur ++ List.replicate (e - cur) glyph ++ t.drop e = blankSeg cur e t := by
  induction t generalizing cur e with
  | nil =>
      have h0 : e = 0 := by simpa using he
      subst h0
      have h1 : cur = 0 := by omega
      subst h1
      rfl
  | cons c t ih =>
      simp only [List.length_cons] at he
      cases cur with
      | zero =>
          cases e with
          | zero =>
              rw [blankSeg_of_le 0 0 (c :: t) (Nat.le_refl 0)]
              simp
          | succ e =>
              have h1 : blankSeg 0 (e + 1) (c :: t) = glyph :: blankSeg 0 e t := by
                simp [blankSeg]
              rw [h1, ← ih 0 e (by omega) (by omega)]
              simp [List.replicate_succ]
      | succ cur =>
          cases e with
          | zero => omega
          | succ e =>
              have h1 : blankSeg (cur + 1) (e + 1) (c :: t) = c :: blankSeg cur e t := by
                simp [blankSeg]
              rw [h1, ← ih cur e (by omega) (by omega)]
              simp only [List.take_succ_cons, List.drop_succ_cons, List.cons_append]
              have e1 : e + 1 - (cur + 1) = e - cur := by omega
              rw [e1]

/- ### Helper lemmas: the walk blanks one contiguous segment -/

theorem redactWalk_flatten (ts : List (List Char)) (rem cur : Nat) :
    (redactWalk ts rem cur).flatten =
      blankSeg (min cur (headLen ts)) (min cur (headLen ts) + rem) ts.flatten := by
  induction ts generalizing rem cur with
  | nil => rfl
  | cons t ts ih =>
      have hhd : headLen (t :: ts) = t.length := rfl
      by_cases h0 : rem = 0
      · subst h0
        rw [Nat.add_zero, blankSeg_of_le _ _ _ (Nat.le_refl _)]
        simp [redactWalk]
      · simp only [redactWalk, if_neg h0, hhd]
        have hz : min 0 (headLen ts) = 0 := by omega
        by_cases hc : cur < t.length
        · have hmin : min cur t.length = cur := by omega
          rw [hmin]
          simp only [redactNode, if_pos hc]
          simp only [List.flatten_cons, ih, hz, Nat.zero_add]
          rw [blankSeg_append]
          congr 1
          · rw [blankSeg_truncate cur (cur + rem) t]
            have hE : min (cur + rem) t.length = min t.length (cur + rem) := by omega
            rw [hE]
            exact blankSeg_surgery cur (min t.length (cur + rem)) t (by omega) (by omega)
          · have e1 : cur - t.length = 0 := by omega
            have e2 : cur + rem - t.length = rem - (min t.length (cur + rem) - cur) := by omega
            rw [e1, e2]
        · -- cur ≥ len t: node untouched, budget unchanged, cursor reset
          have hmin : min cur t.length = t.length := by omega
          rw [hmin]
          simp only [redactNode, if_neg hc]
          simp only [List.flatten_cons, ih, hz, Nat.zero_add]
          rw [blankSeg_append]
          congr 1
          · rw [blankSeg_of_length_le _ _ _ (Nat.le_refl _)]
          · have e1 : t.length - t.length = 0 := by omega
            have e2 : t.length + rem - t.length = rem := by omega
            rw [e1, e2]

theorem headLen_drop (ts : List (List Char)) (i : Nat) : headLen (ts.drop i) = lenAt ts i := by
  unfold headLen lenAt
  rw [List.headD_eq_head?_getD, List.head?_drop]

theorem blankWalk_zero (ts : List (List Char)) : blankWalk ts 0 = ts := by
  induction ts with
  | nil => rfl
  | cons t ts ih => simp [blankWalk, ih]

/-- With the cursor at 0 the code's walk is exactly the claim-side
leading-prefix walk. -/
theorem redactWalk_zero_offset (ts : List (List Char)) (rem : Nat) :
    redactWalk ts rem 0 = blankWalk ts rem := by
  induction ts generalizing rem with
  | nil => rfl
  | cons t ts ih =>
      by_cases h0 : rem = 0
      · subst h0
        simp [redactWalk, blankWalk, blankWalk_zero]
      · simp only [redactWalk, if_neg h0, blankWalk]
        by_cases hl : 0 < t.length
        · simp only [redactNode, if_pos hl]
          congr 1
          · simp only [List.take_zero, List.nil_append, Nat.zero_add, Nat.sub_zero]
            by_cases hr : rem ≤ t.length
            · have e1 : min t.length rem = rem := by omega
              have e2 : min rem t.length = rem := by omega
              rw [e1, e2]
            · have e1 : min t.length rem = t.length := by omega
              have e2 : min rem t.length = t.length := by omega
              rw [e1, e2, List.drop_length, List.drop_eq_nil_of_le (by omega)]
          · rw [ih]
            congr 1
            omega
        · have ht : t = [] := List.eq_nil_of_length_eq_zero (by omega)
          subst ht
          simp only [redactNode, List.length_nil, Nat.zero_add]
          rw [if_neg (by omega), ih]
          simp

theorem redactLeaves_flatten (ts : List (List Char)) (i off L : Nat) :
    (redactLeaves ts i off L).flatten =
      blankSeg (segStart ts i off) (segStart ts i off + L) ts.flatten := by
  have hsplit : ts.flatten = (ts.take i).flatten ++ (ts.drop i).flatten := by
    rw [← List.flatten_append, List.take_append_drop]
  unfold redactLeaves
  rw [List.flatten_append, redactWalk_flatten, headLen_drop, hsplit, blankSeg_append]
  have hP : ((ts.take i).flatten).length ≤ segStart ts i off := by
    unfold segStart
    omega
  congr 1
  · rw [blankSeg_of_length_le _ _ _ hP]
  · have e1 : segStart ts i off - ((ts.take i).flatten).length = min off (lenAt ts i) := by
      unfold segStart
      omega
    have e2 : segStart ts i off + L - ((ts.take i).flatten).length = min off (lenAt ts i) + L := by
      unfold segStart
      omega
    rw [e1, e2]

/- ### Helper lemmas: commutation of redactions -/

/-- Leaf text lists with equal per-leaf lengths and equal flattened
streams are equal. -/
theorem flatten_inj (ts us : List (List Char)) (hlen : ts.map List.length = us.map List.length)
    (hflat : ts.flatten = us.flatten) : ts = us := by
  induction ts generalizing us with
  | nil =>
      cases us with
      | nil => rfl
      | cons u us => simp at hlen
  | cons t ts ih =>
      cases us with
      | nil => simp at hlen
      | cons u us =>
          simp only [List.map_cons, List.cons.injEq] at hlen
          simp only [List.flatten_cons] at hflat
          obtain ⟨h1, h2⟩ := hlen
          obtain ⟨ht, hrest⟩ := List.append_inj hflat h1
          rw [ht, ih us h2 hrest]

/-- `segStart` depends on the texts only through their lengths. -/
theorem segStart_congr (ts us : List (List Char))
    (h : ts.map List.length = us.map List.length) (i off : Nat) :
    segStart ts i off = segStart us i off := by
  unfold segStart lenAt
  have h1 : (ts.take i).flatten.length = (us.take i).flatten.length := by
    rw [List.length_flatten, List.length_flatten, List.map_take, List.map_take, h]
  have hmap := congrArg (fun l => l[i]?) h
  simp only [List.getElem?_map] at hmap
  have h2 : ((ts[i]?).getD []).length = ((us[i]?).getD []).length := by
    cases hts : ts[i]? <;> cases hus : us[i]? <;> rw [hts, hus] at hmap <;> simp_all
  rw [h1, h2]

/-- Two redactions of the leaf-text list commute: each blanks a segment of
the flattened stream whose bounds depend only on the (invariant) leaf
lengths, and blanking segments commutes. -/
theorem redactLeaves_comm (ts : List (List Char)) (i₁ o₁ L₁ i₂ o₂ L₂ : Nat) :
    redactLeaves (redactLeaves ts i₁ o₁ L₁) i₂ o₂ L₂ =
      redactLeaves (redactLeaves ts i₂ o₂ L₂) i₁ o₁ L₁ := by
  apply flatten_inj
  · rw [redactLeaves_map_length, redactLeaves_map_length, redactLeaves_map_length,
      redactLeaves_map_length]
  · rw [redactLeaves_flatten, redactLeaves_flatten, redactLeaves_flatten, redactLeaves_flatten]
    rw [segStart_congr _ ts (redactLeaves_map_length ts i₁ o₁ L₁) i₂ o₂,
      segStart_congr _ ts (redactLeaves_map_length ts i₂ o₂ L₂) i₁ o₁]
    exact blankSeg_comm _ _ _ _ _

/-- Two requests of a batch commute: resolution reads only the tree shape,
which redaction never changes, and the leaf-level redactions commute. -/
theorem applyRedaction_comm (root : XTree) (texts : List (List Char))
    (r₁ r₂ : RedactionRequest) :
    applyRedaction root (applyRedaction root texts r₁) r₂ =
      applyRedaction root (applyRedaction root texts r₂) r₁ := by
  unfold applyRedaction
  cases h₁ : resolveLeafIdx root r₁.xml_path with
  | none => cases h₂ : resolveLeafIdx root r₂.xml_path <;> simp
  | some i₁ =>
      cases h₂ : resolveLeafIdx root r₂.xml_path with
      | none => simp
      | some i₂ => exact redactLeaves_comm texts i₁ r₁.offset r₁.length i₂ r₂.offset r₂.length

/-- Folding a function whose steps commute pairwise is invariant under
permutation of the step list. -/
theorem foldl_eq_of_perm {α β : Type} (f : β → α → β)
    (hf : ∀ b a₁ a₂, f (f b a₁) a₂ = f (f b a₂) a₁) {l₁ l₂ : List α} (h : l₁.Perm l₂) :
    ∀ b, l₁.foldl f b = l₂.foldl f b := by
  induction h with
  | nil => intro b; rfl
  | cons x _ ih => intro b; simp only [List.foldl_cons]; exact ih _
  | swap x y l => intro b; simp only [List.foldl_cons]; rw [hf]
  | trans _ _ ih₁ ih₂ => intro b; rw [ih₁ b, ih₂ b]

/- ### Helper lemmas: deduplication -/

theorem dedupAux_eq_keepFirstOcc (rs : List EntityItem)
    (seen : List (List (String × Nat) × Nat × List Char)) :
    dedupAux rs seen = keepFirstOcc (rs.filter (fun r => decide (¬ dedupKey r ∈ seen))) := by
  induction rs generalizing seen with
  | nil => simp [dedupAux, keepFirstOcc]
  | cons r rs ih =>
      by_cases hk : dedupKey r ∈ seen
      · rw [show dedupAux (r :: rs) seen = dedupAux rs seen by simp [dedupAux, hk]]
        rw [ih seen]
        congr 1
        simp [List.filter_cons, hk]
      · rw [show dedupAux (r :: rs) seen = r :: dedupAux rs (dedupKey r :: seen) by
          simp [dedupAux, hk]]
        rw [ih (dedupKey r :: seen)]
        have hfil : (r :: rs).filter (fun q => decide (¬ dedupKey q ∈ seen)) =
            r :: rs.filter (fun q => decide (¬ dedupKey q ∈ seen)) := by
          simp [List.filter_cons, hk]
        rw [hfil, keepFirstOcc]
        congr 1
        rw [List.filter_filter]
        congr 1
        apply List.filter_congr
        intro q _
        have hiff : (dedupKey q ∉ dedupKey r :: seen) ↔
            (dedupKey q ≠ dedupKey r ∧ dedupKey q ∉ seen) := by
          simp [not_or]
        rw [decide_eq_decide.mpr hiff, Bool.decide_and]

theorem dedup_eq_keepFirstOcc (rs : List EntityItem) : dedup rs = keepFirstOcc rs := by
  unfold dedup
  rw [dedupAux_eq_keepFirstOcc rs []]
  congr 1
  simp

/- ### Helper lemmas: the first leaf of the walk, and suffix shapes -/

theorem drop_eq_getD_cons (ts : List (List Char)) (i : Nat) (hi : i < ts.length) :
    ts.drop i = ((ts[i]?).getD []) :: ts.drop (i + 1) := by
  rw [List.drop_eq_getElem_cons hi]
  congr 1
  rw [List.getElem?_eq_getElem hi]
  rfl

theorem redactWalk_zero_rem (ts : List (List Char)) (cur : Nat) : redactWalk ts 0 cur = ts := by
  cases ts with
  | nil => rfl
  | cons t ts => simp [redactWalk]

/-- The first step of the walk when the budget exceeds the characters the
first leaf has from `off`: the first leaf is blanked from `off` to its
end (a no-op when `off` is beyond its text), and the walk continues on
the rest with cursor 0 and the budget reduced by what was blanked. -/
theorem redactWalk_first (t : List Char) (ts : List (List Char)) (off L : Nat)
    (hrem : t.length - off < L) :
    redactWalk (t :: ts) L off =
      (t.take off ++ List.replicate (t.length - off) glyph)
        :: blankWalk ts (L - (t.length - off)) := by
  have hL : L ≠ 0 := by omega
  simp only [redactWalk, if_neg hL]
  by_cases hoff : off < t.length
  · simp only [redactNode, if_pos hoff]
    have he : min t.length (off + L) = t.length := by omega
    rw [he, List.drop_length, List.append_nil, redactWalk_zero_offset]
  · simp only [redactNode, if_neg hoff]
    have h0 : t.length - off = 0 := by omega
    rw [h0, redactWalk_zero_offset]
    congr 1
    rw [List.take_of_length_le (by omega)]
    simp

theorem take_succ_append_cons (A : List (List Char)) (t : List Char) (B : List (List Char))
    (i : Nat) (h : A.length = i) : (A ++ t :: B).take (i + 1) = A ++ [t] := by
  subst h
  rw [List.take_append_eq_append_take, List.take_of_length_le (by omega)]
  congr 1
  · have e1 : A.length + 1 - A.length = 1 := by omega
    rw [e1]
    rfl

theorem drop_succ_append_cons (A : List (List Char)) (t : List Char) (B : List (List Char))
    (i : Nat) (h : A.length = i) : (A ++ t :: B).drop (i + 1) = B := by
  subst h
  rw [List.drop_append_eq_append_drop, List.drop_of_length_le (by omega)]
  have e1 : A.length + 1 - A.length = 1 := by omega
  rw [e1]
  rfl

/- ### Helper lemmas: the entity cascade -/

theorem filter_phone_emailCands (ms : List RawMatch) :
    (emailCands ms).filter (fun c => c.ename == "phone") = [] := by
  rw [List.filter_eq_nil_iff]
  intro c hc
  obtain ⟨m, _, rfl⟩ := List.mem_map.mp hc
  exact (by decide : ¬ (("email" : String) == "phone") = true)

theorem filter_phone_accountCands (ms : List RawMatch) :
    (accountCands ms).filter (fun c => c.ename == "phone") = [] := by
  rw [List.filter_eq_nil_iff]
  intro c hc
  obtain ⟨m, _, rfl⟩ := List.mem_map.mp hc
  exact (by decide : ¬ (("account" : String) == "phone") = true)

theorem filter_phone_dateCands (ms : List RawMatch) :
    (dateCands ms).filter (fun c => c.ename == "phone") = [] := by
  rw [List.filter_eq_nil_iff]
  intro c hc
  obtain ⟨m, _, rfl⟩ := List.mem_map.mp hc
  exact (by decide : ¬ (("date" : String) == "phone") = true)

theorem filter_phone_hintCands (text : List Char) (ms : List RawMatch) :
    (hintCands text ms).filter (fun c => c.ename == "phone") = [] := by
  rw [List.filter_eq_nil_iff]
  intro c hc
  obtain ⟨m, _, rfl⟩ := List.mem_map.mp hc
  exact (by decide : ¬ (("address_hint" : String) == "phone") = true)

theorem filter_phone_nameCands (ms : List RawMatch) :
    (nameCands ms).filter (fun c => c.ename == "phone") = [] := by
  rw [List.filter_eq_nil_iff]
  intro c hc
  obtain ⟨m, _, rfl⟩ := List.mem_map.mp hc
  exact (by decide : ¬ (("name_heuristic" : String) == "phone") = true)

theorem spacyCands_ename (ents : List SpacyEnt) (c : Candidate) (hc : c ∈ spacyCands ents) :
    c.ename = "name" ∨ c.ename = "location" ∨ c.ename = "organization" := by
  obtain ⟨ent, _, hsome⟩ := List.mem_filterMap.mp hc
  by_cases hl : ent.label_ = "PERSON" ∨ ent.label_ = "GPE" ∨ ent.label_ = "LOC" ∨
      ent.label_ = "ORG"
  · rw [if_pos hl] at hsome
    injection hsome with hsome
    subst hsome
    by_cases h1 : ent.label_ = "PERSON"
    · simp [h1]
    · by_cases h2 : ent.label_ = "GPE" ∨ ent.label_ = "LOC" <;> simp [h1, h2]
  · rw [if_neg hl] at hsome
    exact Option.noConfusion hsome

theorem filter_phone_spacyCands (ents : List SpacyEnt) :
    (spacyCands ents).filter (fun c => c.ename == "phone") = [] := by
  rw [List.filter_eq_nil_iff]
  intro c hc hphone
  rcases spacyCands_ename ents c hc with h | h | h <;> rw [h] at hphone <;> exact absurd hphone (by decide)

theorem filter_phone_phoneCands (ms : List RawMatch) :
    (phoneCands ms).filter (fun c => c.ename == "phone") = phoneCands ms := by
  induction ms with
  | nil => rfl
  | cons m ms ih =>
      by_cases hc : 6 ≤ (phoneDigits m.mtext).length ∧ (phoneDigits m.mtext).length ≤ 15 ∧
          ¬ emailMatch m.mtext
      · have hstep : phoneCands (m :: ms) =
            ⟨"phone", m.mtext, m.mstart, m.mend⟩ :: phoneCands ms := by
          unfold phoneCands
          rw [List.filterMap_cons, if_pos hc]
        have hkeep : (Candidate.mk "phone" m.mtext m.mstart m.mend :: phoneCands ms).filter
            (fun c => c.ename == "phone") =
            Candidate.mk "phone" m.mtext m.mstart m.mend ::
              (phoneCands ms).filter (fun c => c.ename == "phone") := rfl
        rw [hstep, hkeep, ih]
      · have hstep : phoneCands (m :: ms) = phoneCands ms := by
          unfold phoneCands
          rw [List.filterMap_cons, if_neg hc]
        rw [hstep, ih]

/- ### Claim theorems -/

/-- C1: for every RedactionRequest whose resolved leaf (ordinal position
`i`) has fewer than `length` characters remaining from `offset`,
`redact_docx` blanks the span across leaves in document order: leaves
before the target are not touched, the target leaf keeps its first
`offset` characters and its characters from `offset` to its end become
blackout glyphs (one glyph per character), and the subsequent leaves have
their leading characters blanked (`blankWalk`, starting at local
position 0) until exactly `length` characters total have been replaced or
the leaf sequence is exhausted. -/
theorem redact_spans_cross_leaf (ts : List (List Char)) (i off L : Nat)
    (hi : i < ts.length) (hrem : lenAt ts i - off < L) :
    redactLeaves ts i off L =
      ts.take i ++
        (((ts[i]?).getD []).take off ++ List.replicate (lenAt ts i - off) glyph)
          :: blankWalk (ts.drop (i + 1)) (L - (lenAt ts i - off)) := by
  unfold redactLeaves
  rw [drop_eq_getD_cons ts i hi, redactWalk_first _ _ _ _ hrem]
  rfl

/-- Witness for C1 at the spec §8 scenario: offset 5, length 10, leaf A
with only 7 of its 12 characters remaining from offset 5, next leaf B with
20 characters: A's last 7 characters and B's first 3 become blackout
glyphs, B's remaining 17 characters are unchanged. -/
theorem redact_spans_cross_leaf_witness :
    (0 : Nat) < ([leafA, leafB] : List (List Char)).length ∧
      lenAt [leafA, leafB] 0 - 5 < 10 ∧
      redactLeaves [leafA, leafB] 0 5 10 =
        ["Hello███████".toList, "███3456789abcdefghij".toList] := by
  refine ⟨by decide, by decide, ?_⟩
  rw [redact_spans_cross_leaf [leafA, leafB] 0 5 10 (by decide) (by decide)]
  decide

/-- C4: redaction is length-preserving: after any request (and any batch),
every leaf's text has the same length as before; each replaced character
becomes exactly one blackout glyph and nothing is inserted or deleted. -/
theorem redact_length_preserving :
    (∀ ts i off L, (redactLeaves ts i off L).map List.length = ts.map List.length) ∧
      (∀ root texts reds, (redact_docx root texts reds).map List.length =
        texts.map List.length) := by
  constructor
  · exact redactLeaves_map_length
  · intro root texts reds
    induction reds generalizing texts with
    | nil => rfl
    | cons r rs ih =>
        rw [show redact_docx root texts (r :: rs) =
            redact_docx root (applyRedaction root texts r) rs from rfl]
        rw [ih (applyRedaction root texts r)]
        unfold applyRedaction
        cases h : resolveLeafIdx root r.xml_path with
        | none => rfl
        | some i => exact redactLeaves_map_length texts i r.offset r.length

/-- C2 counterexample: `doc0` has leaves "ab" and "cdef"; the request
(first leaf, offset 5, length 2) resolves to ordinal 0, yet position 2 of
the logical stream "abcdef" from the target leaf — outside the requested
range [5, 7) — changes from 'c' to a blackout glyph. -/
theorem redact_frame_violation_cex :
    resolveLeafIdx doc0 addrT1 = some 0 ∧
      (applyRedaction doc0 textsAB ⟨addrT1, 5, 2⟩).flatten[2]? = some glyph ∧
      textsAB.flatten[2]? = some 'c' ∧
      glyph ≠ 'c' ∧ (2 : Nat) < 5 := by decide

/-- C2 (amended): for every request whose `offset` lies within the target
leaf's text (`offset < lenAt ts i`), redaction changes no character
outside `[offset, offset + length)` of the logical stream formed by the
target leaf and the leaves after it, and the leaves before the target are
unchanged.  (Without that hypothesis the claim fails: see the
counterexample, where the walk restarts at the next leaf's position 0.) -/
theorem redact_frame_within_leaf (ts : List (List Char)) (i off L : Nat)
    (hoff : off < lenAt ts i) :
    (redactLeaves ts i off L).take i = ts.take i ∧
      ∀ p, p < off ∨ off + L ≤ p →
        ((redactLeaves ts i off L).drop i).flatten[p]? = ((ts.drop i).flatten)[p]? := by
  have hlen : (ts.take i).length = i := by
    rw [List.length_take]
    by_contra hcon
    have hle : ts.length ≤ i := by omega
    have : ts[i]? = none := List.getElem?_eq_none hle
    unfold lenAt at hoff
    rw [this] at hoff
    simp at hoff
  constructor
  · unfold redactLeaves
    exact List.take_left' hlen
  · intro p hp
    unfold redactLeaves
    rw [List.drop_left' hlen, redactWalk_flatten, headLen_drop]
    have hmin : min off (lenAt ts i) = off := by omega
    rw [hmin]
    exact blankSeg_getElem? off (off + L) p (ts.drop i).flatten hp

/-- Witness for the amended C2: request (leaf 1 of `textsAB`, offset 1,
length 1); leaf 0 is unchanged and stream position 0 of the suffix is
unchanged. -/
theorem redact_frame_within_leaf_witness :
    (1 : Nat) < lenAt textsAB 1 ∧
      (redactLeaves textsAB 1 1 1).take 1 = textsAB.take 1 ∧
      ((redactLeaves textsAB 1 1 1).drop 1).flatten[0]? = ((textsAB.drop 1).flatten)[0]? := by
  refine ⟨by decide, ?_, ?_⟩
  · exact (redact_frame_within_leaf textsAB 1 1 1 (by decide)).1
  · exact (redact_frame_within_leaf textsAB 1 1 1 (by decide)).2 0 (Or.inl (by decide))

/-- C3 counterexample: a request whose address resolves (to `doc0`'s first
leaf, text "ab") but whose offset 5 is at or beyond that leaf's text
length does NOT contribute zero redaction: it changes the second leaf. -/
theorem skip_out_of_range_request_cex :
    resolveLeafIdx doc0 addrT1 = some 0 ∧
      lenAt textsAB 0 ≤ 5 ∧
      applyRedaction doc0 textsAB ⟨addrT1, 5, 2⟩ ≠ textsAB := by decide

/-- C3 (amended): a request whose address resolves to no current text
leaf changes no character of any leaf's text; a request whose resolved
leaf offers no characters at the computed start position leaves the
target leaf and every leaf before it unchanged, but redacts the FOLLOWING
leaves exactly as a request for the next leaf with offset 0 would; in
both cases processing continues with the next request of the batch. -/
theorem out_of_range_request_behavior :
    (∀ root texts red, resolveLeafIdx root red.xml_path = none →
        applyRedaction root texts red = texts) ∧
      (∀ ts i off L, i < ts.length → lenAt ts i ≤ off →
        (redactLeaves ts i off L).take (i + 1) = ts.take (i + 1) ∧
          (redactLeaves ts i off L).drop (i + 1) = redactLeaves (ts.drop (i + 1)) 0 0 L) ∧
      (∀ root texts red rest,
        redact_docx root texts (red :: rest) =
          redact_docx root (applyRedaction root texts red) rest) := by
  refine ⟨?_, ?_, ?_⟩
  · intro root texts red h
    unfold applyRedaction
    rw [h]
  · intro ts i off L hi hoff
    have hlen : (ts.take i).length = i := by
      rw [List.length_take]
      omega
    have htake : ts.take (i + 1) = ts.take i ++ [(ts[i]?).getD []] := by
      rw [List.take_succ, List.getElem?_eq_getElem hi]
      rfl
    have hbody : redactLeaves ts i off L =
        ts.take i ++ ((ts[i]?).getD []) :: redactWalk (ts.drop (i + 1)) L 0 := by
      unfold redactLeaves
      rw [drop_eq_getD_cons ts i hi]
      by_cases hL : L = 0
      · subst hL
        rw [redactWalk_zero_rem, redactWalk_zero_rem]
      · simp only [redactWalk, if_neg hL]
        have hnode : redactNode ((ts[i]?).getD []) off L = (((ts[i]?).getD []), L) := by
          unfold redactNode
          rw [if_neg (by unfold lenAt at hoff; omega)]
        rw [hnode]
    constructor
    · rw [hbody, htake, take_succ_append_cons _ _ _ i hlen]
    · rw [hbody, drop_succ_append_cons _ _ _ i hlen]
      unfold redactLeaves
      rw [List.take_zero, List.drop_zero, List.nil_append, redactWalk_zero_offset]
  · intro root texts red rest
    rfl

/-- Witness for the amended C3: the enumerator-style address `addr0` does
not resolve (so its request is a no-op), an out-of-range offset keeps the
target leaf intact while spilling into the suffix, and the batch fold
continues past a request. -/
theorem out_of_range_request_behavior_witness :
    resolveLeafIdx doc0 addr0 = none ∧
      applyRedaction doc0 textsAB ⟨addr0, 0, 2⟩ = textsAB ∧
      (0 : Nat) < textsAB.length ∧ lenAt textsAB 0 ≤ 5 ∧
      (redactLeaves textsAB 0 5 2).take 1 = textsAB.take 1 ∧
      (redactLeaves textsAB 0 5 2).drop 1 = redactLeaves (textsAB.drop 1) 0 0 2 ∧
      redact_docx doc0 textsAB [⟨addr0, 0, 2⟩] =
        redact_docx doc0 (applyRedaction doc0 textsAB ⟨addr0, 0, 2⟩) [] := by
  refine ⟨by decide, ?_, by decide, by decide, ?_, ?_, ?_⟩
  · exact out_of_range_request_behavior.1 doc0 textsAB ⟨addr0, 0, 2⟩ (by decide)
  · exact (out_of_range_request_behavior.2.1 textsAB 0 5 2 (by decide) (by decide)).1
  · exact (out_of_range_request_behavior.2.1 textsAB 0 5 2 (by decide) (by decide)).2
  · exact out_of_range_request_behavior.2.2 doc0 textsAB ⟨addr0, 0, 2⟩ []

/-- C5: the address round-trip FAILS.  On `doc0` (root `w:document`,
then `w:body / w:p / w:r / (w:t, w:t)`), the enumerator produces
`addr0 = w:body[1]/w:p[1]/w:r[1]/w:t[1]` for the first leaf (the root
element contributes no component), but the redaction lookup evaluates the
stripped path as an ABSOLUTE XPath, whose first step is matched against
the root element `w:document` — so resolution selects NO node (for this
leaf and for the second one alike), not the original leaf.  The final
conjunct shows the failure is exactly the missing root step: evaluating
the same components as child steps below the root does reach the leaf. -/
theorem address_roundtrip_fails :
    get_text_nodes_and_paths doc0 =
        [([0, 0, 0, 0], addr0),
         ([0, 0, 0, 1], [("w:body", 1), ("w:p", 1), ("w:r", 1), ("w:t", 2)])] ∧
      resolvePos doc0 addr0 = none ∧
      resolvePos doc0 [("w:body", 1), ("w:p", 1), ("w:r", 1), ("w:t", 2)] = none ∧
      resolveLeafIdx doc0 addr0 = none ∧
      resolveSteps doc0 addr0 = some [0, 0, 0, 0] := by decide

/-- C6: `main`'s deduplication removes a record exactly when an earlier
record shares its (address, offset, text) triple and keeps survivors in
their original order (`keepFirstOcc` keeps each first occurrence in place
and drops every later same-key record); the label is not part of the key,
so a `date` and an `account` record with identical address, offset and
text collapse to the first inserted. -/
theorem dedup_first_occurrence :
    (∀ rs, dedup rs = keepFirstOcc rs) ∧
      dedup [itemDate, itemAccount] = [itemDate] ∧
      itemDate.entity_name ≠ itemAccount.entity_name ∧
      dedupKey itemDate = dedupKey itemAccount := by
  exact ⟨dedup_eq_keepFirstOcc, by decide, by decide, by decide⟩

/-- C7: a candidate of the phone pattern is emitted as a phone entity iff
its digit count after stripping non-digits is between 6 and 15 inclusive
and its text does not match the email pattern — no other rule emits a
`phone` label; the candidate "123" (3 digits) is rejected and
"+1 415-555-2671" (11 digits, not email-shaped) is accepted. -/
theorem phone_filter_characterization :
    (∀ text emailMs accountMs dateMs phoneMs hintMs nameMs use_spacy spacyEnts,
      (find_entities_in_text text emailMs accountMs dateMs phoneMs hintMs nameMs
          use_spacy spacyEnts).filter (fun c => c.ename == "phone") = phoneCands phoneMs) ∧
      (∀ m : RawMatch, phoneCands [m] =
        if 6 ≤ (phoneDigits m.mtext).length ∧ (phoneDigits m.mtext).length ≤ 15 ∧
            ¬ emailMatch m.mtext
        then [⟨"phone", m.mtext, m.mstart, m.mend⟩] else []) ∧
      (phoneDigits "123".toList).length = 3 ∧
      phoneCands [⟨"123".toList, 0, 3⟩] = [] ∧
      (phoneDigits "+1 415-555-2671".toList).length = 11 ∧
      emailMatch "+1 415-555-2671".toList = false ∧
      phoneCands [⟨"+1 415-555-2671".toList, 0, 15⟩] =
        [⟨"phone", "+1 415-555-2671".toList, 0, 15⟩] := by
  refine ⟨?_, ?_, by decide, by decide, by decide, by decide, by decide⟩
  · intro text emailMs accountMs dateMs phoneMs hintMs nameMs use_spacy spacyEnts
    unfold find_entities_in_text
    rw [List.filter_append, List.filter_append, List.filter_append, List.filter_append,
      List.filter_append]
    rw [filter_phone_emailCands, filter_phone_accountCands, filter_phone_dateCands,
      filter_phone_phoneCands, filter_phone_hintCands]
    cases use_spacy with
    | false =>
        rw [if_neg (by simp), filter_phone_nameCands]
        simp
    | true =>
        rw [if_pos rfl, filter_phone_spacyCands]
        simp
  · intro m
    unfold phoneCands
    by_cases hc : 6 ≤ (phoneDigits m.mtext).length ∧ (phoneDigits m.mtext).length ≤ 15 ∧
        ¬ emailMatch m.mtext
    · rw [List.filterMap_cons, if_pos hc, if_pos hc]
      rfl
    · rw [List.filterMap_cons, if_neg hc, if_neg hc]
      rfl

/-- C8: applying a batch of RedactionRequests in any caller-supplied
order yields the same final text in every leaf: address resolution reads
only the (unchanged) tree shape and each request blanks a fixed,
length-preserving segment of the character stream, so requests commute. -/
theorem batch_order_independent (root : XTree) (texts : List (List Char))
    (reds₁ reds₂ : List RedactionRequest) (h : reds₁.Perm reds₂) :
    redact_docx root texts reds₁ = redact_docx root texts reds₂ :=
  foldl_eq_of_perm (applyRedaction root)
    (fun b a₁ a₂ => applyRedaction_comm root b a₁ a₂) h texts

/-- Witness for C8: two overlapping requests on `doc0` applied in both
orders. -/
theorem batch_order_independent_witness :
    redact_docx doc0 textsAB [⟨addrT1, 0, 3⟩, ⟨addrT2, 1, 2⟩] =
      redact_docx doc0 textsAB [⟨addrT2, 1, 2⟩, ⟨addrT1, 0, 3⟩] :=
  batch_order_independent doc0 textsAB _ _
    (List.Perm.swap (⟨addrT2, 1, 2⟩ : RedactionRequest) (⟨addrT1, 0, 3⟩ : RedactionRequest) [])

/-- C9: every candidate the cascade returns satisfies
`0 ≤ start < end ≤ length(text)`, given the engine contract that every
pattern match and recognizer span lies inside the text and is non-empty
(each of the six patterns requires at least one character, and offsets
are naturals, so `0 ≤ start` holds by construction).  The address-hint
window `[max(0, start-30), min(len, end+60))` is clipped back into
bounds by the cascade itself. -/
theorem candidate_offsets_in_bounds (text : List Char)
    (emailMs accountMs dateMs phoneMs hintMs nameMs : List RawMatch)
    (use_spacy : Bool) (spacyEnts : List SpacyEnt)
    (hEmail : ∀ m ∈ emailMs, m.mstart < m.mend ∧ m.mend ≤ text.length)
    (hAccount : ∀ m ∈ accountMs, m.mstart < m.mend ∧ m.mend ≤ text.length)
    (hDate : ∀ m ∈ dateMs, m.mstart < m.mend ∧ m.mend ≤ text.length)
    (hPhone : ∀ m ∈ phoneMs, m.mstart < m.mend ∧ m.mend ≤ text.length)
    (hHint : ∀ m ∈ hintMs, m.mstart < m.mend ∧ m.mend ≤ text.length)
    (hName : ∀ m ∈ nameMs, m.mstart < m.mend ∧ m.mend ≤ text.length)
    (hSpacy : ∀ e ∈ spacyEnts, e.start_char < e.end_char ∧ e.end_char ≤ text.length) :
    ∀ c ∈ find_entities_in_text text emailMs accountMs dateMs phoneMs hintMs nameMs
        use_spacy spacyEnts, c.cstart < c.cend ∧ c.cend ≤ text.length := by
  intro c hc
  unfold find_entities_in_text at hc
  simp only [List.mem_append] at hc
  rcases hc with ((((hc | hc) | hc) | hc) | hc) | hc
  · obtain ⟨m, hm, rfl⟩ := List.mem_map.mp hc
    exact hEmail m hm
  · obtain ⟨m, hm, rfl⟩ := List.mem_map.mp hc
    exact hAccount m hm
  · obtain ⟨m, hm, rfl⟩ := List.mem_map.mp hc
    exact hDate m hm
  · obtain ⟨m, hm, hsome⟩ := List.mem_filterMap.mp hc
    by_cases hcond : 6 ≤ (phoneDigits m.mtext).length ∧ (phoneDigits m.mtext).length ≤ 15 ∧
        ¬ emailMatch m.mtext
    · rw [if_pos hcond] at hsome
      injection hsome with hsome
      subst hsome
      exact hPhone m hm
    · rw [if_neg hcond] at hsome
      exact Option.noConfusion hsome
  · obtain ⟨m, hm, rfl⟩ := List.mem_map.mp hc
    obtain ⟨hm1, hm2⟩ := hHint m hm
    constructor
    · show m.mstart - 30 < min text.length (m.mend + 60)
      omega
    · show min text.length (m.mend + 60) ≤ text.length
      omega
  · cases use_spacy with
    | true =>
        rw [if_pos rfl] at hc
        obtain ⟨ent, hent, hsome⟩ := List.mem_filterMap.mp hc
        by_cases hl : ent.label_ = "PERSON" ∨ ent.label_ = "GPE" ∨ ent.label_ = "LOC" ∨
            ent.label_ = "ORG"
        · rw [if_pos hl] at hsome
          injection hsome with hsome
          subst hsome
          exact hSpacy ent hent
        · rw [if_neg hl] at hsome
          exact Option.noConfusion hsome
    | false =>
        rw [if_neg (by simp)] at hc
        obtain ⟨m, hm, rfl⟩ := List.mem_map.mp hc
        exact hName m hm

/-- Witness for C9: the address-hint window candidate on `txtW` (keyword
match `[2, 8)` in a 10-character text) satisfies the bounds. -/
theorem candidate_offsets_in_bounds_witness :
    (⟨"address_hint", "street".toList, 0, 10⟩ : Candidate) ∈
        find_entities_in_text txtW [] [] [] [] [hintM] [] false [] ∧
      (0 : Nat) < 10 ∧ (10 : Nat) ≤ txtW.length := by
  have hnil : ∀ m : RawMatch, m ∈ ([] : List RawMatch) →
      m.mstart < m.mend ∧ m.mend ≤ txtW.length := by
    intro m hm
    cases hm
  have hhint : ∀ m ∈ [hintM], m.mstart < m.mend ∧ m.mend ≤ txtW.length := by
    intro m hm
    rw [List.mem_singleton] at hm
    subst hm
    exact ⟨by decide, by decide⟩
  have hsp : ∀ e : SpacyEnt, e ∈ ([] : List SpacyEnt) →
      e.start_char < e.end_char ∧ e.end_char ≤ txtW.length := by
    intro e he
    cases he
  have hmain := candidate_offsets_in_bounds txtW [] [] [] [] [hintM] [] false []
    hnil hnil hnil hnil hhint hnil hsp ⟨"address_hint", "street".toList, 0, 10⟩ (by decide)
  exact ⟨by decide, hmain.1, hmain.2⟩

/-- C10: every record emitted by the detection invocation has
`length = len(text)` — computed from the matched text itself, not from
`end - start`; for an address-hint record the length is that of the
whitespace-trimmed window text ("street", 6 characters) while `offset`
is the untrimmed window start (0) and the window end is 10, so
`length ≠ end - offset` there. -/
theorem record_length_from_text :
    (∀ ents path r, r ∈ mkItems ents path → r.length = r.rtext.length) ∧
      find_entities_in_text txtW [] [] [] [] [hintM] [] false [] =
        [⟨"address_hint", "street".toList, 0, 10⟩] ∧
      mkItems (find_entities_in_text txtW [] [] [] [] [hintM] [] false []) addr0 =
        [⟨"address_hint", "street".toList, addr0, 0, 6⟩] ∧
      (6 : Nat) ≠ 10 - 0 := by
  refine ⟨?_, by decide, by decide, by decide⟩
  intro ents path r hr
  obtain ⟨e, _, rfl⟩ := List.mem_map.mp hr
  rfl
